import Mathlib

/-!
Shallow embedding of the joke-enrichment pipeline (`joke_enrichment.py`):
text utilities, the four metric modules, the registry and the record
pipeline with its shallow-copy/aliasing semantics, together with theorems
checking the specification's claims against the embedded code.
-/

namespace JokeEnrich

/-- Text is modelled as a list of characters (Python `str`). -/
abbrev Str := List Char

/-- Python `str.split()` with no argument: split on runs of whitespace,
discarding empty tokens.  Auxiliary: `acc` is the reversed current token. -/
def splitWsAux : Str → Str → List Str
  | [], acc => if acc = [] then [] else [acc.reverse]
  | c :: cs, acc =>
    if c.isWhitespace then
      if acc = [] then splitWsAux cs [] else acc.reverse :: splitWsAux cs []
    else splitWsAux cs (c :: acc)

/-- Python `str.split()` (no argument). -/
def splitWs (t : Str) : List Str := splitWsAux t []

/-- Python `re.split(r"[p]+", text)`: split on maximal runs of characters
satisfying `p`, keeping empty segments (so a trailing separator yields a
trailing empty segment).  `acc` is the reversed current segment, `inSep`
records whether the previous character was a separator. -/
def splitRunsAux (p : Char → Bool) : Str → Str → Bool → List Str
  | [], acc, _ => [acc.reverse]
  | c :: cs, acc, inSep =>
    if p c then
      if inSep then splitRunsAux p cs acc true
      else acc.reverse :: splitRunsAux p cs [] true
    else splitRunsAux p cs (c :: acc) false

/-- Python `re.split` on runs of separator characters. -/
def splitRuns (p : Char → Bool) (t : Str) : List Str := splitRunsAux p t [] false

/-- Number of maximal runs of characters satisfying `p`; `prev` records
whether the previous character satisfied `p`. -/
def countRunsAux (p : Char → Bool) : Str → Bool → Nat
  | [], _ => 0
  | c :: cs, prev =>
    if p c ∧ ¬prev then countRunsAux p cs (p c) + 1 else countRunsAux p cs (p c)

/-- Number of maximal runs of characters satisfying `p` in `t`. -/
def countRuns (p : Char → Bool) (t : Str) : Nat := countRunsAux p t false

/-- The sentence terminators of `calculate_flesch_kincaid`: `.`, `!`, `?`. -/
def isPunct (c : Char) : Bool := c = '.' ∨ c = '!' ∨ c = '?'

/-- The vowels of `count_syllables`: `aeiouy`. -/
def isVowel (c : Char) : Bool :=
  c = 'a' ∨ c = 'e' ∨ c = 'i' ∨ c = 'o' ∨ c = 'u' ∨ c = 'y'

/-- One iteration of the `count_syllables` character loop: state is the
running count and the `on_vowel` flag. -/
def sylStep (st : ℕ × Bool) (c : Char) : ℕ × Bool :=
  (if isVowel c ∧ ¬st.2 then st.1 + 1 else st.1, isVowel c)

/-- The character loop of `ReadabilityScorer.count_syllables`. -/
def sylLoop (w : Str) : ℕ := (w.foldl sylStep (0, false)).1

/-- `ReadabilityScorer.count_syllables`: lower-case the word, count
vowel-group starts, decrement for a trailing `e`, floor at 1. -/
def count_syllables (w : Str) : Int :=
  let lw := w.map Char.toLower
  let base : Int := sylLoop lw
  let adjusted : Int := if lw.getLast? = some 'e' then base - 1 else base
  max adjusted 1

/-- Round-half-to-even to an integer (the rounding Python's `round` uses). -/
def rndHalfEven (q : ℚ) : ℤ :=
  let n := ⌊q⌋
  let f := q - n
  if f < 1/2 then n
  else if 1/2 < f then n + 1
  else if n % 2 = 0 then n else n + 1

/-- Python `round(q, d)`: round to `d` decimal places, half to even. -/
def pyRound (q : ℚ) (d : ℕ) : ℚ := (rndHalfEven (q * 10 ^ d) : ℚ) / 10 ^ d

/-- `ReadabilityScorer.calculate_flesch_kincaid`. -/
def calculate_flesch_kincaid (t : Str) : ℚ :=
  let sentences := (splitRuns isPunct t).length
  let words := (splitWs t).length
  let syllables := ((splitWs t).map count_syllables).sum
  if sentences = 0 ∨ words = 0 then 0
  else
    pyRound
      (39/100 * ((words : ℚ) / (sentences : ℚ))
        + 118/10 * ((syllables : ℚ) / (words : ℚ)) - 1559/100) 2

/-- Boolean substring containment: Python's `keyword in full_text`. -/
def isSub (pat t : Str) : Bool := t.tails.any (fun s => pat.isPrefixOf s)

/-- Deduplicate keeping first occurrences (`collections.Counter` key
insertion order); `seen` accumulates keys already emitted. -/
def dedupAux : List Str → List Str → List Str
  | [], _ => []
  | x :: xs, seen => if x ∈ seen then dedupAux xs seen else x :: dedupAux xs (x :: seen)

/-- Distinct elements of `l` in first-occurrence order. -/
def dedupFirst (l : List Str) : List Str := dedupAux l []

/-- Stable insertion for a descending sort by `cnt`: `x` is placed before
the first element of count ≤ its own, so elements already in the list that
tie with `x` end up after it. -/
def insertDesc (cnt : Str → ℕ) (x : Str) : List Str → List Str
  | [] => [x]
  | y :: ys => if cnt y ≤ cnt x then x :: y :: ys else y :: insertDesc cnt x ys

/-- Stable sort by `cnt`, descending — the order `Counter.most_common`
produces over keys in insertion order. -/
def sortByCntDesc (cnt : Str → ℕ) : List Str → List Str
  | [] => []
  | x :: xs => insertDesc cnt x (sortByCntDesc cnt xs)

/-- `Counter(all).most_common(5)` keys: distinct keys in first-occurrence
order, stably sorted by frequency descending, first five taken. -/
def mostCommon5 (all : List Str) : List Str :=
  (sortByCntDesc (fun k => all.count k) (dedupFirst all)).take 5

/-- `KeywordExtractor.programming_keywords`: categories in dict insertion
order, each with its keyword list. -/
def programming_keywords : List (String × List Str) :=
  [("languages",
    ["python".data, "java".data, "javascript".data, "c++".data, "c#".data,
     "php".data, "ruby".data, "go".data, "rust".data, "swift".data,
     "kotlin".data, "scala".data, "perl".data, "cobol".data, "assembly".data,
     "html".data, "css".data, "sql".data, "xml".data, "json".data]),
   ("concepts",
    ["function".data, "variable".data, "loop".data, "array".data,
     "object".data, "class".data, "method".data, "inheritance".data,
     "polymorphism".data, "encapsulation".data, "abstraction".data,
     "recursion".data, "algorithm".data, "data structure".data,
     "database".data, "api".data, "framework".data, "library".data,
     "compiler".data, "interpreter".data, "debug".data, "bug".data,
     "code".data, "program".data, "software".data, "hardware".data,
     "network".data, "server".data, "client".data, "frontend".data,
     "backend".data, "fullstack".data, "devops".data, "git".data,
     "version control".data, "testing".data, "deployment".data,
     "microservices".data, "docker".data, "kubernetes".data, "cloud".data,
     "aws".data, "azure".data, "gcp".data]),
   ("tools",
    ["ide".data, "editor".data, "vscode".data, "vim".data, "emacs".data,
     "eclipse".data, "intellij".data, "github".data, "gitlab".data,
     "bitbucket".data, "jira".data, "confluence".data, "slack".data,
     "teams".data, "docker".data, "kubernetes".data, "jenkins".data,
     "travis".data, "circleci".data, "npm".data, "pip".data, "maven".data,
     "gradle".data, "webpack".data, "babel".data, "eslint".data,
     "prettier".data])]

/-- Values stored inside a metric-result block. -/
inductive BVal where
  | s : String → BVal
  | q : ℚ → BVal
  | i : ℤ → BVal
  | ls : List Str → BVal
  | cat : List (String × List Str) → BVal
deriving DecidableEq

/-- One module's result block: a mapping from field name to value. -/
abbrev Block := List (String × BVal)

/-- The non-`enrichment` fields of a record (Python dict of strings). -/
abbrev Fields := List (String × String)

/-- Python `joke.get(k, "")`. -/
def getField (fields : Fields) (k : String) : String := (fields.lookup k).getD ""

/-- `f"{setup} {punchline}"` over character lists. -/
def combine (setup punchline : Str) : Str := setup ++ ' ' :: punchline

/-- `SentimentAnalyzer.enrich`'s result block, with the TextBlob polarity
and subjectivity functions passed in as abstract parameters (TextBlob is
an external library, not part of this repository). -/
def sentimentBlock (pol sub : Str → ℚ) (fields : Fields) : Block :=
  let setup := (getField fields "setup").data
  let punchline := (getField fields "punchline").data
  let full := combine setup punchline
  let polarity := pol full
  let sentiment : String :=
    if polarity > 1/10 then "positive"
    else if polarity < -(1/10) then "negative"
    else "neutral"
  [("sentiment", .s sentiment),
   ("polarity", .q (pyRound polarity 3)),
   ("subjectivity", .q (pyRound (sub full) 3)),
   ("setup_polarity", .q (pyRound (pol setup) 3)),
   ("punchline_polarity", .q (pyRound (pol punchline) 3))]

/-- `KeywordExtractor.enrich`'s result block. -/
def keywordBlock (fields : Fields) : Block :=
  let setup := (getField fields "setup").data.map Char.toLower
  let punchline := (getField fields "punchline").data.map Char.toLower
  let full := combine setup punchline
  let found := programming_keywords.map
    (fun p => (p.1, p.2.filter (fun k => isSub k full)))
  let allKeywords := (found.map Prod.snd).foldl (· ++ ·) []
  let words := splitWs full
  [("keywords_by_category", .cat found),
   ("top_keywords", .ls (mostCommon5 allKeywords)),
   ("total_keywords", .i allKeywords.length),
   ("keyword_density",
    .q (if words = [] then 0
        else pyRound ((allKeywords.length : ℚ) / (words.length : ℚ)) 3))]

/-- `ReadabilityScorer._categorize_readability`. -/
def categorize_readability (grade : ℚ) : String :=
  if grade ≤ 6 then "easy" else if grade ≤ 10 then "moderate" else "difficult"

/-- `ReadabilityScorer.enrich`'s result block. -/
def readabilityBlock (fields : Fields) : Block :=
  let setup := (getField fields "setup").data
  let punchline := (getField fields "punchline").data
  let full := combine setup punchline
  let fk := calculate_flesch_kincaid full
  let words := splitWs full
  let wordCount := words.length
  let avgWordLen : ℚ :=
    if wordCount > 0
    then pyRound (((words.map List.length).sum : ℚ) / (wordCount : ℚ)) 2
    else 0
  [("flesch_kincaid_grade", .q fk),
   ("word_count", .i wordCount),
   ("sentence_count", .i (splitRuns isPunct full).length),
   ("average_word_length", .q avgWordLen),
   ("readability_level", .s (categorize_readability fk))]

/-- `JokeLengthClassifier.enrich`'s result block (thresholds 15 and 30). -/
def lengthBlock (fields : Fields) : Block :=
  let setup := (getField fields "setup").data
  let punchline := (getField fields "punchline").data
  let full := combine setup punchline
  let wordCount := (splitWs full).length
  let lengthCategory : String :=
    if wordCount ≤ 15 then "short"
    else if wordCount ≤ 30 then "medium"
    else "long"
  [("word_count", .i wordCount),
   ("character_count", .i full.length),
   ("length_category", .s lengthCategory),
   ("setup_word_count", .i (splitWs setup).length),
   ("punchline_word_count", .i (splitWs punchline).length)]

/-- The `enrichment` dict of one record: module name → result block. -/
abbrev EnrichMap := List (String × Block)

/-- The store of `enrichment` dict objects.  Python dicts are mutable heap
objects shared by reference; `dict.copy()` is shallow, so an input record
and its pipeline copy can alias the same `enrichment` dict.  The heap
makes that aliasing explicit. -/
abbrev Heap := List EnrichMap

/-- A record: its non-`enrichment` fields, plus (when the `enrichment`
key is present) a reference into the heap to its `enrichment` dict. -/
structure Record where
  fields : Fields
  eref : Option ℕ
deriving DecidableEq

/-- Python `d[k] = v` on a dict with distinct keys: overwrite in place if
present, append if absent. -/
def dictInsert (k : String) (v : Block) : EnrichMap → EnrichMap
  | [] => [(k, v)]
  | (k2, v2) :: rest =>
    if k2 = k then (k, v) :: rest else (k2, v2) :: dictInsert k v rest

/-- An enrichment module: its `self.name` and its block computation. -/
abbrev Module := String × (Fields → Block)

/-- The body of every module's `enrich`: compute the block from the
record's fields, then `joke["enrichment"] = joke.get("enrichment", {})`
(allocating a fresh dict when the key is absent) and
`joke["enrichment"][self.name] = block` (an in-place update of the
referenced dict). -/
def applyModule (m : Module) (r : Record) (h : Heap) : Record × Heap :=
  let block := m.2 r.fields
  match r.eref with
  | some i => (r, h.set i (dictInsert m.1 block (h.getD i [])))
  | none => ({ r with eref := some h.length }, h ++ [dictInsert m.1 block []])

/-- `JokeEnrichmentPipeline.__init__`'s registry `self.enrichers`:
selector name → module. -/
def registry (pol sub : Str → ℚ) : List (String × Module) :=
  [("sentiment", ("sentiment_analysis", sentimentBlock pol sub)),
   ("keywords", ("keyword_extraction", keywordBlock)),
   ("readability", ("readability_scoring", readabilityBlock)),
   ("length", ("length_classification", lengthBlock))]

/-- The inner loop of `enrich_jokes` for one record: walk the requested
names in caller order; a known name runs its module, an unknown name
appends a warning (`print(f"Warning: ...")`) and is skipped. -/
def enrichOne (reg : List (String × Module)) :
    List String → Record → Heap → List String → Record × Heap × List String
  | [], r, h, w => (r, h, w)
  | nm :: rest, r, h, w =>
    match reg.lookup nm with
    | some m =>
      let rh := applyModule m r h
      enrichOne reg rest rh.1 rh.2 w
    | none => enrichOne reg rest r h (w ++ [nm])

/-- The outer loop of `enrich_jokes`: for each joke, take a shallow copy
(`joke.copy()` — same field values, same `enrichment` reference) and fold
the requested modules over it; collect the copies. -/
def enrichJokesAux (reg : List (String × Module)) :
    List Record → List String → Heap → List String →
    List Record × Heap × List String
  | [], _, h, w => ([], h, w)
  | j :: js, names, h, w =>
    let step := enrichOne reg names j h w
    let rest := enrichJokesAux reg js names step.2.1 step.2.2
    (step.1 :: rest.1, rest.2.1, rest.2.2)

/-- `JokeEnrichmentPipeline.enrich_jokes`, with the TextBlob sentiment
functions abstract; returns the enriched copies, the final heap and the
warnings emitted. -/
def enrich_jokes (pol sub : Str → ℚ) (jokes : List Record)
    (enrichment_types : List String) (h : Heap) :
    List Record × Heap × List String :=
  enrichJokesAux (registry pol sub) jokes enrichment_types h []

/-- The observable `enrichment` content of a record under a heap:
`none` when the record has no `enrichment` key. -/
def readEnrich (h : Heap) (r : Record) : Option EnrichMap :=
  r.eref.map (fun i => h.getD i [])

/-- A selector name the registry knows. -/
def knownName (nm : String) : Bool :=
  nm = "sentiment" ∨ nm = "keywords" ∨ nm = "readability" ∨ nm = "length"

/-! ### Run-counting lemmas -/

theorem splitRunsAux_length (p : Char → Bool) (t : Str) :
    ∀ (acc : Str) (b : Bool),
      (splitRunsAux p t acc b).length = countRunsAux p t b + 1 := by
  induction t with
  | nil => intro acc b; simp [splitRunsAux, countRunsAux]
  | cons c cs ih =>
    intro acc b
    by_cases hc : p c
    · by_cases hb : b
      · simp [splitRunsAux, countRunsAux, hc, hb, ih]
      · simp [splitRunsAux, countRunsAux, hc, hb, ih]
    · simp [splitRunsAux, countRunsAux, hc, ih]

theorem splitRuns_length (p : Char → Bool) (t : Str) :
    (splitRuns p t).length = countRuns p t + 1 :=
  splitRunsAux_length p t [] false

theorem sylStep_foldl (t : Str) :
    ∀ (k : ℕ) (b : Bool),
      (t.foldl sylStep (k, b)).1 = k + countRunsAux isVowel t b := by
  induction t with
  | nil => intro k b; simp [countRunsAux]
  | cons c cs ih =>
    intro k b
    by_cases hc : isVowel c
    · by_cases hb : b
      · have h1 : sylStep (k, b) c = (k, true) := by simp [sylStep, hc, hb]
        have h2 : countRunsAux isVowel (c :: cs) b = countRunsAux isVowel cs true := by
          simp [countRunsAux, hc, hb]
        rw [List.foldl_cons, h1, h2, ih]
      · have hb' : b = false := by simpa using hb
        have h1 : sylStep (k, b) c = (k + 1, true) := by simp [sylStep, hc, hb']
        have h2 : countRunsAux isVowel (c :: cs) b = countRunsAux isVowel cs true + 1 := by
          simp [countRunsAux, hc, hb']
        rw [List.foldl_cons, h1, h2, ih]
        omega
    · have h1 : sylStep (k, b) c = (k, false) := by
        simp [sylStep, hc, Bool.eq_false_iff.mpr hc]
      have h2 : countRunsAux isVowel (c :: cs) b = countRunsAux isVowel cs false := by
        simp [countRunsAux, hc, Bool.eq_false_iff.mpr hc]
      rw [List.foldl_cons, h1, h2, ih]

theorem sylLoop_eq_countRuns (w : Str) : sylLoop w = countRuns isVowel w := by
  simpa using sylStep_foldl w 0 false

/-! ### Claim theorems: readability -/

/-- C4: `count_syllables` returns the number of maximal contiguous runs of
characters from `{a,e,i,o,u,y}` in the lower-cased word, decremented by 1
if the lower-cased word ends in `e`, floored at 1; in particular the
result is at least 1 for every word. -/
theorem count_syllables_spec (w : Str) :
    count_syllables w =
      max ((countRuns isVowel (w.map Char.toLower) : ℤ) -
        (if (w.map Char.toLower).getLast? = some 'e' then 1 else 0)) 1 ∧
    1 ≤ count_syllables w := by
  constructor
  · simp only [count_syllables, sylLoop_eq_countRuns]
    split_ifs with he <;> simp
  · exact le_max_right _ 1

/-- C3: `calculate_flesch_kincaid` splits on runs of `.`, `!`, `?`, giving
`countRuns + 1 ≥ 1` sentence segments; it returns 0 when the word count is
0, and otherwise returns
`0.39·(words/sentences) + 11.8·(syllables/words) − 15.59` rounded to 2
decimal places, with words the whitespace-split tokens and syllables the
sum of per-word syllable counts. -/
theorem flesch_kincaid_spec (t : Str) :
    (splitRuns isPunct t).length = countRuns isPunct t + 1 ∧
    1 ≤ (splitRuns isPunct t).length ∧
    ((splitWs t).length = 0 → calculate_flesch_kincaid t = 0) ∧
    ((splitWs t).length ≠ 0 →
      calculate_flesch_kincaid t =
        pyRound
          (39/100 * (((splitWs t).length : ℚ) / ((countRuns isPunct t : ℚ) + 1))
            + 118/10 *
              ((((splitWs t).map count_syllables).sum : ℚ) / ((splitWs t).length : ℚ))
            - 1559/100) 2) := by
  refine ⟨splitRuns_length isPunct t, ?_, ?_, ?_⟩
  · rw [splitRuns_length]; omega
  · intro hw
    unfold calculate_flesch_kincaid
    simp [hw]
  · intro hw
    unfold calculate_flesch_kincaid
    rw [splitRuns_length]
    simp only [hw, or_false, if_neg (by omega : ¬(countRuns isPunct t + 1 = 0))]
    push_cast
    ring_nf

/-- Witness for C3: on `" "` the word count is 0 and the result is 0; on
`"Hello world."` the formula branch applies. -/
theorem flesch_kincaid_spec_witness :
    calculate_flesch_kincaid [' '] = 0 ∧
    calculate_flesch_kincaid ("Hello world.".data) =
      pyRound
        (39/100 * (((splitWs ("Hello world.".data)).length : ℚ) /
            ((countRuns isPunct ("Hello world.".data) : ℚ) + 1))
          + 118/10 *
            ((((splitWs ("Hello world.".data)).map count_syllables).sum : ℚ) /
              ((splitWs ("Hello world.".data)).length : ℚ))
          - 1559/100) 2 :=
  ⟨(flesch_kincaid_spec [' ']).2.2.1 (by decide),
   (flesch_kincaid_spec ("Hello world.".data)).2.2.2 (by decide)⟩

/-! ### Claim theorems: length classification and keyword density -/

/-- The combined text `f"{setup} {punchline}"` of a record. -/
def combinedText (fields : Fields) : Str :=
  combine (getField fields "setup").data (getField fields "punchline").data

/-- `n` words of one character each, separated by single spaces. -/
def mkWords (n : ℕ) : Str := List.intercalate [' '] (List.replicate n ['w'])

/-- A record whose combined text has exactly `n` words. -/
def wordsFields (n : ℕ) : Fields := [("setup", String.mk (mkWords n))]

/-- C5: `length_category` is `"short"` iff the combined word count is
≤ 15, `"medium"` iff it is in 16..30, `"long"` iff it is ≥ 31; the
boundaries 15/16/30/31 land on short/medium/medium/long. -/
theorem length_category_spec (fields : Fields) :
    (lengthBlock fields).lookup "length_category" =
      some (.s (if (splitWs (combinedText fields)).length ≤ 15 then "short"
        else if (splitWs (combinedText fields)).length ≤ 30 then "medium"
        else "long")) ∧
    ((lengthBlock fields).lookup "length_category" = some (.s "short") ↔
      (splitWs (combinedText fields)).length ≤ 15) ∧
    ((lengthBlock fields).lookup "length_category" = some (.s "medium") ↔
      16 ≤ (splitWs (combinedText fields)).length ∧
        (splitWs (combinedText fields)).length ≤ 30) ∧
    ((lengthBlock fields).lookup "length_category" = some (.s "long") ↔
      31 ≤ (splitWs (combinedText fields)).length) ∧
    ((splitWs (combinedText (wordsFields 15))).length = 15 ∧
      (lengthBlock (wordsFields 15)).lookup "length_category" = some (.s "short")) ∧
    ((splitWs (combinedText (wordsFields 16))).length = 16 ∧
      (lengthBlock (wordsFields 16)).lookup "length_category" = some (.s "medium")) ∧
    ((splitWs (combinedText (wordsFields 30))).length = 30 ∧
      (lengthBlock (wordsFields 30)).lookup "length_category" = some (.s "medium")) ∧
    ((splitWs (combinedText (wordsFields 31))).length = 31 ∧
      (lengthBlock (wordsFields 31)).lookup "length_category" = some (.s "long")) := by
  have hmain : (lengthBlock fields).lookup "length_category" =
      some (.s (if (splitWs (combinedText fields)).length ≤ 15 then "short"
        else if (splitWs (combinedText fields)).length ≤ 30 then "medium"
        else "long")) := by
    simp [lengthBlock, combinedText, List.lookup]
  refine ⟨hmain, ?_, ?_, ?_, by decide, by decide, by decide, by decide⟩
  · rw [hmain]
    split_ifs with h1 h2 <;> simp <;> omega
  · rw [hmain]
    split_ifs with h1 h2 <;> simp <;> omega
  · rw [hmain]
    split_ifs with h1 h2 <;> simp <;> omega

/-- The lower-cased combined text used by `KeywordExtractor.enrich`. -/
def loweredText (fields : Fields) : Str :=
  combine ((getField fields "setup").data.map Char.toLower)
    ((getField fields "punchline").data.map Char.toLower)

/-- Total found keyword occurrences, summed per category. -/
def totalFound (fields : Fields) : ℕ :=
  (programming_keywords.map
    (fun p => (p.2.filter (fun k => isSub k (loweredText fields))).length)).sum

theorem foldl_append_length {α : Type} (ls : List (List α)) :
    ∀ acc : List α,
      (ls.foldl (· ++ ·) acc).length = acc.length + (ls.map List.length).sum := by
  induction ls with
  | nil => intro acc; simp
  | cons l ls ih =>
    intro acc
    rw [List.foldl_cons, ih]
    simp
    omega

/-- C2: `keyword_density` equals the total number of found keyword
occurrences divided by the word count of the lower-cased combined text,
rounded to 3 decimal places, and 0 when that text has no words. -/
theorem keyword_density_spec (fields : Fields) :
    (keywordBlock fields).lookup "keyword_density" =
      some (.q (if (splitWs (loweredText fields)).length = 0 then 0
        else pyRound
          ((totalFound fields : ℚ) / ((splitWs (loweredText fields)).length : ℚ)) 3)) ∧
    ((splitWs (loweredText fields)).length = 0 →
      (keywordBlock fields).lookup "keyword_density" = some (.q 0)) := by
  have hlen :
      (((programming_keywords.map
        (fun p => (p.1, p.2.filter (fun k => isSub k (loweredText fields))))).map
          Prod.snd).foldl (· ++ ·) []).length = totalFound fields := by
    rw [foldl_append_length]
    simp only [totalFound, List.map_map, List.length_nil, Nat.zero_add]
    congr 1
  have hmain : (keywordBlock fields).lookup "keyword_density" =
      some (.q (if (splitWs (loweredText fields)).length = 0 then 0
        else pyRound
          ((totalFound fields : ℚ) /
            ((splitWs (loweredText fields)).length : ℚ)) 3)) := by
    simp only [keywordBlock, List.lookup]
    rw [show (combine ((getField fields "setup").data.map Char.toLower)
      ((getField fields "punchline").data.map Char.toLower)) = loweredText fields
      from rfl]
    rw [hlen]
    simp [List.length_eq_zero]
  refine ⟨hmain, fun h0 => ?_⟩
  rw [hmain, if_pos h0]

/-- Witness for C2: the record with no fields has the space-only combined
text, zero words, and density 0. -/
theorem keyword_density_spec_witness :
    (keywordBlock []).lookup "keyword_density" = some (.q 0) :=
  (keyword_density_spec []).2 (by decide)

/-! ### Claim theorems: sentiment -/

theorem rndHalfEven_zero : rndHalfEven 0 = 0 := by
  norm_num [rndHalfEven]

theorem pyRound_zero (d : ℕ) : pyRound 0 d = 0 := by
  simp [pyRound, rndHalfEven_zero]

/-- C8: the sentiment category is decided by the thresholds ±0.1 on the
combined-text polarity; the four numeric outputs are rounded to 3 decimal
places; missing `setup`/`punchline` default to the empty string, and a
zero-sentiment combined text yields `"neutral"` with zero outputs. -/
theorem sentiment_block_spec (pol sub : Str → ℚ) (fields : Fields) :
    (sentimentBlock pol sub fields).lookup "sentiment" =
      some (.s (if 1/10 < pol (combinedText fields) then "positive"
        else if pol (combinedText fields) < -(1/10) then "negative"
        else "neutral")) ∧
    (sentimentBlock pol sub fields).lookup "polarity" =
      some (.q (pyRound (pol (combinedText fields)) 3)) ∧
    (sentimentBlock pol sub fields).lookup "subjectivity" =
      some (.q (pyRound (sub (combinedText fields)) 3)) ∧
    (sentimentBlock pol sub fields).lookup "setup_polarity" =
      some (.q (pyRound (pol (getField fields "setup").data) 3)) ∧
    (sentimentBlock pol sub fields).lookup "punchline_polarity" =
      some (.q (pyRound (pol (getField fields "punchline").data) 3)) ∧
    (fields.lookup "setup" = none → fields.lookup "punchline" = none →
      pol [' '] = 0 → sub [' '] = 0 →
      (sentimentBlock pol sub fields).lookup "sentiment" = some (.s "neutral") ∧
      (sentimentBlock pol sub fields).lookup "polarity" = some (.q 0) ∧
      (sentimentBlock pol sub fields).lookup "subjectivity" = some (.q 0)) := by
  refine ⟨?_, ?_, ?_, ?_, ?_, ?_⟩
  · simp [sentimentBlock, combinedText, List.lookup]
  · simp [sentimentBlock, combinedText, List.lookup]
  · simp [sentimentBlock, combinedText, List.lookup]
  · simp [sentimentBlock, List.lookup]
  · simp [sentimentBlock, List.lookup]
  · intro hs hp hpol hsub
    have hst : getField fields "setup" = "" := by simp [getField, hs]
    have hpl : getField fields "punchline" = "" := by simp [getField, hp]
    have hfull : combine (getField fields "setup").data
        (getField fields "punchline").data = [' '] := by
      rw [hst, hpl]; rfl
    refine ⟨?_, ?_, ?_⟩
    · simp [sentimentBlock, List.lookup, hfull, hpol, hsub, pyRound_zero]
      norm_num
    · simp [sentimentBlock, List.lookup, hfull, hpol, hsub, pyRound_zero]
    · simp [sentimentBlock, List.lookup, hfull, hpol, hsub, pyRound_zero]

/-- Witness for C8: constant-zero sentiment functions on the empty record
give the neutral block with zero outputs. -/
theorem sentiment_block_spec_witness :
    (sentimentBlock (fun _ => 0) (fun _ => 0) []).lookup "sentiment" =
      some (.s "neutral") ∧
    (sentimentBlock (fun _ => 0) (fun _ => 0) []).lookup "polarity" =
      some (.q 0) ∧
    (sentimentBlock (fun _ => 0) (fun _ => 0) []).lookup "subjectivity" =
      some (.q 0) :=
  (sentiment_block_spec (fun _ => 0) (fun _ => 0) []).2.2.2.2.2 rfl rfl rfl rfl

theorem rndHalfEven_hundred (x : ℚ) (hx1 : 100 < x) (hx2 : x < 201/2) :
    rndHalfEven x = 100 := by
  have hfl : ⌊x⌋ = 100 := by
    rw [Int.floor_eq_iff]
    constructor
    · push_cast; linarith
    · push_cast; linarith
  unfold rndHalfEven
  rw [hfl]
  rw [if_pos]
  push_cast
  linarith

/-- C10: for every polarity `p` with `0.1 < p < 0.1005`, the block reports
sentiment `"positive"` (decided on the unrounded `p`) together with the
rounded polarity `0.1`. -/
theorem sentiment_threshold_rounding (p : ℚ) (fields : Fields)
    (h1 : 1/10 < p) (h2 : p < 1005/10000) :
    (sentimentBlock (fun _ => p) (fun _ => 0) fields).lookup "sentiment" =
      some (.s "positive") ∧
    (sentimentBlock (fun _ => p) (fun _ => 0) fields).lookup "polarity" =
      some (.q (1/10)) := by
  have hround : pyRound p 3 = 1/10 := by
    unfold pyRound
    rw [show p * 10 ^ 3 = p * 1000 by norm_num]
    rw [rndHalfEven_hundred (p * 1000) (by linarith) (by linarith)]
    norm_num
  constructor
  · simp [sentimentBlock, List.lookup, h1]
    intro hle
    norm_num at hle
    linarith
  · simp [sentimentBlock, List.lookup, hround]

/-- Witness for C10: `p = 0.1001` lies strictly between the threshold and
the rounding midpoint. -/
theorem sentiment_threshold_rounding_witness :
    (sentimentBlock (fun _ => (1001/10000 : ℚ)) (fun _ => 0) []).lookup "sentiment" =
      some (.s "positive") ∧
    (sentimentBlock (fun _ => (1001/10000 : ℚ)) (fun _ => 0) []).lookup "polarity" =
      some (.q (1/10)) :=
  sentiment_threshold_rounding (1001/10000) [] (by norm_num) (by norm_num)

/-! ### Lemmas about `dedupFirst` and the stable descending sort -/

theorem mem_dedupAux (a : Str) : ∀ (l seen : List Str),
    a ∈ dedupAux l seen ↔ a ∈ l ∧ a ∉ seen := by
  intro l
  induction l with
  | nil => intro seen; simp [dedupAux]
  | cons x xs ih =>
    intro seen
    by_cases hx : x ∈ seen
    · rcases eq_or_ne a x with rfl | hax
      · simp [dedupAux, hx, ih]
      · simp [dedupAux, hx, ih, hax]
    · rcases eq_or_ne a x with rfl | hax
      · simp [dedupAux, hx]
      · simp [dedupAux, hx, ih, hax]

theorem mem_dedupFirst (a : Str) (l : List Str) : a ∈ dedupFirst l ↔ a ∈ l := by
  simp [dedupFirst, mem_dedupAux]

theorem nodup_dedupAux : ∀ (l seen : List Str), (dedupAux l seen).Nodup := by
  intro l
  induction l with
  | nil => intro seen; simp [dedupAux]
  | cons x xs ih =>
    intro seen
    by_cases hx : x ∈ seen
    · simpa [dedupAux, hx] using ih seen
    · rw [show dedupAux (x :: xs) seen = x :: dedupAux xs (x :: seen) from by
        simp [dedupAux, hx]]
      refine List.Pairwise.cons ?_ (ih (x :: seen))
      intro b hb hxb
      rw [mem_dedupAux] at hb
      apply hb.2
      rw [← hxb]
      exact List.mem_cons_self x seen

theorem nodup_dedupFirst (l : List Str) : (dedupFirst l).Nodup := nodup_dedupAux l []

theorem insertDesc_perm (cnt : Str → ℕ) (x : Str) :
    ∀ l : List Str, (insertDesc cnt x l).Perm (x :: l) := by
  intro l
  induction l with
  | nil => simp [insertDesc]
  | cons y ys ih =>
    by_cases h : cnt y ≤ cnt x
    · simp [insertDesc, h]
    · rw [insertDesc, if_neg h]
      exact (ih.cons y).trans (List.Perm.swap x y ys)

theorem sortByCntDesc_perm (cnt : Str → ℕ) :
    ∀ l : List Str, (sortByCntDesc cnt l).Perm l := by
  intro l
  induction l with
  | nil => simp [sortByCntDesc]
  | cons x xs ih =>
    rw [sortByCntDesc]
    exact (insertDesc_perm cnt x _).trans (ih.cons x)

theorem insertDesc_pairwise (cnt : Str → ℕ) (x : Str) :
    ∀ l : List Str, l.Pairwise (fun a b => cnt b ≤ cnt a) →
      (insertDesc cnt x l).Pairwise (fun a b => cnt b ≤ cnt a) := by
  intro l
  induction l with
  | nil => intro _; simp [insertDesc]
  | cons y ys ih =>
    intro h
    rw [List.pairwise_cons] at h
    by_cases hc : cnt y ≤ cnt x
    · rw [insertDesc, if_pos hc, List.pairwise_cons]
      refine ⟨?_, List.Pairwise.cons h.1 h.2⟩
      intro b hb
      rcases List.mem_cons.mp hb with rfl | hbys
      · exact hc
      · exact le_trans (h.1 b hbys) hc
    · rw [insertDesc, if_neg hc, List.pairwise_cons]
      refine ⟨?_, ih h.2⟩
      intro b hb
      rcases List.mem_cons.mp ((insertDesc_perm cnt x ys).mem_iff.mp hb) with rfl | hbys
      · exact le_of_lt (lt_of_not_le hc)
      · exact h.1 b hbys

theorem sortByCntDesc_pairwise (cnt : Str → ℕ) :
    ∀ l : List Str, (sortByCntDesc cnt l).Pairwise (fun a b => cnt b ≤ cnt a) := by
  intro l
  induction l with
  | nil => simp [sortByCntDesc]
  | cons x xs ih => exact insertDesc_pairwise cnt x _ ih

theorem insertDesc_filter_ne (cnt : Str → ℕ) (x : Str) (c : ℕ) (hx : cnt x ≠ c) :
    ∀ l : List Str,
      (insertDesc cnt x l).filter (fun k => cnt k == c) =
        l.filter (fun k => cnt k == c) := by
  have hbx : (cnt x == c) = false := beq_eq_false_iff_ne.mpr hx
  intro l
  induction l with
  | nil => simp [insertDesc, List.filter_cons, hbx]
  | cons y ys ih =>
    by_cases h : cnt y ≤ cnt x
    · rw [insertDesc, if_pos h]
      simp [List.filter_cons, hbx]
    · rw [insertDesc, if_neg h]
      simp only [List.filter_cons, ih]

theorem insertDesc_filter_eq (cnt : Str → ℕ) (x : Str) (c : ℕ) (hx : cnt x = c) :
    ∀ l : List Str,
      (insertDesc cnt x l).filter (fun k => cnt k == c) =
        x :: l.filter (fun k => cnt k == c) := by
  have hbx : (cnt x == c) = true := beq_iff_eq.mpr hx
  intro l
  induction l with
  | nil => simp [insertDesc, List.filter_cons, hbx]
  | cons y ys ih =>
    by_cases h : cnt y ≤ cnt x
    · rw [insertDesc, if_pos h]
      simp [List.filter_cons, hbx]
    · have hy : (cnt y == c) = false := beq_eq_false_iff_ne.mpr (by omega)
      rw [insertDesc, if_neg h]
      simp [List.filter_cons, hy, ih]

theorem sortByCntDesc_filter (cnt : Str → ℕ) (c : ℕ) :
    ∀ l : List Str,
      (sortByCntDesc cnt l).filter (fun k => cnt k == c) =
        l.filter (fun k => cnt k == c) := by
  intro l
  induction l with
  | nil => simp [sortByCntDesc]
  | cons x xs ih =>
    rw [sortByCntDesc]
    by_cases hx : cnt x = c
    · rw [insertDesc_filter_eq cnt x c hx, ih]
      simp [List.filter_cons, beq_iff_eq.mpr hx]
    · rw [insertDesc_filter_ne cnt x c hx, ih]
      simp [List.filter_cons, beq_eq_false_iff_ne.mpr hx]

/-! ### Claim theorems: keyword extraction -/

/-- Each category paired with the keywords found in the lowered text. -/
def foundCategories (fields : Fields) : List (String × List Str) :=
  programming_keywords.map
    (fun p => (p.1, p.2.filter (fun k => isSub k (loweredText fields))))

/-- `all_keywords` of `KeywordExtractor.enrich`: the found lists
concatenated in category order. -/
def allFound (fields : Fields) : List Str :=
  ((foundCategories fields).map Prod.snd).foldl (· ++ ·) []

/-- Occurrence count of one keyword in the aggregated found list. -/
def kwCount (fields : Fields) (k : Str) : ℕ := (allFound fields).count k

/-- The t2 scenario record of the spec. -/
def javaFields : Fields :=
  [("joke_id", "t2"),
   ("setup", "A programmer had a problem. He decided to use Java."),
   ("punchline", "He now has a ProblemFactory.")]

/-- A record whose text holds six distinct keywords, one of them
(`docker`) in two categories. -/
def multiKwFields : Fields := [("setup", "python java php ruby vim docker")]

/-- C7: `keywords_by_category` pairs each category with exactly those of
its keywords occurring as substrings of the lowered combined text, each at
most once, in keyword-list order; `top_keywords` is the first five of the
distinct found keywords stably sorted by frequency descending (ties in
first-encountered order), so it has ≤ 5 pairwise-distinct entries, all
found, each at least as frequent as every excluded keyword;
`total_keywords` is the length of the aggregated found list; and the t2
record finds `"java"` under `languages`. -/
theorem keyword_extraction_spec (fields : Fields) :
    (keywordBlock fields).lookup "keywords_by_category" =
      some (.cat (foundCategories fields)) ∧
    List.Forall₂
      (fun (q p : String × List Str) =>
        p.1 = q.1 ∧ p.2.Nodup ∧ List.Sublist p.2 q.2 ∧
          ∀ k, k ∈ p.2 ↔ k ∈ q.2 ∧ isSub k (loweredText fields) = true)
      programming_keywords (foundCategories fields) ∧
    (keywordBlock fields).lookup "top_keywords" =
      some (.ls (mostCommon5 (allFound fields))) ∧
    (mostCommon5 (allFound fields)).length ≤ 5 ∧
    (mostCommon5 (allFound fields)).Nodup ∧
    (mostCommon5 (allFound fields)).Pairwise
      (fun a b => kwCount fields b ≤ kwCount fields a) ∧
    (∀ x ∈ mostCommon5 (allFound fields), x ∈ allFound fields) ∧
    (∀ y ∈ allFound fields, y ∉ mostCommon5 (allFound fields) →
      ∀ x ∈ mostCommon5 (allFound fields), kwCount fields y ≤ kwCount fields x) ∧
    (∀ c : ℕ,
      (sortByCntDesc (kwCount fields) (dedupFirst (allFound fields))).filter
          (fun k => kwCount fields k == c) =
        (dedupFirst (allFound fields)).filter
          (fun k => kwCount fields k == c)) ∧
    mostCommon5 (allFound fields) =
      (sortByCntDesc (kwCount fields) (dedupFirst (allFound fields))).take 5 ∧
    (keywordBlock fields).lookup "total_keywords" =
      some (.i ((allFound fields).length : ℤ)) ∧
    "java".data ∈ ((foundCategories javaFields).lookup "languages").getD [] := by
  have hnodupKw : ∀ p ∈ programming_keywords, p.2.Nodup := by decide
  have hperm := sortByCntDesc_perm (kwCount fields) (dedupFirst (allFound fields))
  have hpair := sortByCntDesc_pairwise (kwCount fields) (dedupFirst (allFound fields))
  have hsortedNodup :
      (sortByCntDesc (kwCount fields) (dedupFirst (allFound fields))).Nodup :=
    hperm.nodup_iff.mpr (nodup_dedupFirst _)
  have htake :
      mostCommon5 (allFound fields) =
        (sortByCntDesc (kwCount fields) (dedupFirst (allFound fields))).take 5 := rfl
  refine ⟨rfl, ?_, rfl, ?_, ?_, ?_, ?_, ?_, ?_, htake, rfl, by decide⟩
  · rw [foundCategories, List.forall₂_map_right_iff, List.forall₂_same]
    intro p hp
    refine ⟨rfl, (hnodupKw p hp).filter _, List.filter_sublist _, ?_⟩
    intro k
    simp [List.mem_filter]
  · rw [htake]
    exact List.length_take_le 5 _
  · rw [htake]
    exact hsortedNodup.sublist (List.take_sublist 5 _)
  · rw [htake]
    exact hpair.sublist (List.take_sublist 5 _)
  · intro x hx
    rw [htake] at hx
    exact (mem_dedupFirst x _).mp
      (hperm.subset ((List.take_sublist 5 _).subset hx))
  · intro y hy hyt x hxt
    rw [htake] at hyt hxt
    have hysorted : y ∈ sortByCntDesc (kwCount fields) (dedupFirst (allFound fields)) :=
      hperm.symm.subset ((mem_dedupFirst y _).mpr hy)
    have hydrop :
        y ∈ (sortByCntDesc (kwCount fields) (dedupFirst (allFound fields))).drop 5 := by
      rcases List.mem_append.mp
        (by rw [List.take_append_drop]; exact hysorted :
          y ∈ (sortByCntDesc (kwCount fields) (dedupFirst (allFound fields))).take 5 ++
            (sortByCntDesc (kwCount fields) (dedupFirst (allFound fields))).drop 5)
        with h | h
      · exact absurd h hyt
      · exact h
    have hsplit := hpair
    rw [← List.take_append_drop 5
      (sortByCntDesc (kwCount fields) (dedupFirst (allFound fields)))] at hsplit
    exact (List.pairwise_append.mp hsplit).2.2 x hxt y hydrop
  · intro c
    exact sortByCntDesc_filter (kwCount fields) c (dedupFirst (allFound fields))

/-- Witness for C7: on the six-keyword record, `vim` is excluded from the
top five and is no more frequent than the included `python`; `docker` is
aggregated. -/
theorem keyword_extraction_spec_witness :
    kwCount multiKwFields "vim".data ≤ kwCount multiKwFields "python".data ∧
    "docker".data ∈ allFound multiKwFields :=
  ⟨(keyword_extraction_spec multiKwFields).2.2.2.2.2.2.2.1 "vim".data
      (by decide) (by decide) "python".data (by decide),
   (keyword_extraction_spec multiKwFields).2.2.2.2.2.2.1 "docker".data
      (by decide)⟩

/-! ### Lemmas about dict update and heap cells -/

theorem lookup_dictInsert_self (k : String) (v : Block) :
    ∀ m : EnrichMap, (dictInsert k v m).lookup k = some v := by
  intro m
  induction m with
  | nil => simp [dictInsert, List.lookup]
  | cons p rest ih =>
    obtain ⟨k2, v2⟩ := p
    by_cases h : k2 = k
    · simp [dictInsert, h, List.lookup]
    · simp only [dictInsert, if_neg h, List.lookup,
        beq_eq_false_iff_ne.mpr (Ne.symm h), ih]

theorem lookup_dictInsert_ne (k : String) (v : Block) (k' : String) (hk : k' ≠ k) :
    ∀ m : EnrichMap, (dictInsert k v m).lookup k' = m.lookup k' := by
  intro m
  induction m with
  | nil => simp [dictInsert, List.lookup, beq_eq_false_iff_ne.mpr hk]
  | cons p rest ih =>
    obtain ⟨k2, v2⟩ := p
    by_cases h : k2 = k
    · subst h
      simp [dictInsert, List.lookup, beq_eq_false_iff_ne.mpr hk]
    · by_cases h' : k' = k2
      · subst h'
        simp [dictInsert, if_neg h, List.lookup]
      · simp only [dictInsert, if_neg h, List.lookup,
          beq_eq_false_iff_ne.mpr h', ih]

theorem lookup_dictInsert_isSome (k : String) (v : Block) (k' : String)
    (m : EnrichMap) (hm : (m.lookup k').isSome) :
    ((dictInsert k v m).lookup k').isSome := by
  by_cases hk : k' = k
  · subst hk
    rw [lookup_dictInsert_self]
    rfl
  · rw [lookup_dictInsert_ne k v k' hk]
    exact hm

/-- The `enrichment` dict stored at heap index `i` (empty for a dangling
index; valid states never read one). -/
def cellAt (h : Heap) (i : ℕ) : EnrichMap := h.getD i []

theorem cellAt_set_ne (h : Heap) (j : ℕ) (m : EnrichMap) (i : ℕ) (hij : i ≠ j) :
    cellAt (h.set j m) i = cellAt h i := by
  simp [cellAt, List.getD, List.getElem?_set_ne (Ne.symm hij)]

theorem cellAt_set_self (h : Heap) (j : ℕ) (m : EnrichMap) (hj : j < h.length) :
    cellAt (h.set j m) j = m := by
  simp [cellAt, List.getD, List.getElem?_set_self, hj]

theorem cellAt_append_lt (h : Heap) (x : EnrichMap) (i : ℕ) (hi : i < h.length) :
    cellAt (h ++ [x]) i = cellAt h i := by
  simp [cellAt, List.getD, List.getElem?_append_left hi]

theorem cellAt_append_self (h : Heap) (x : EnrichMap) :
    cellAt (h ++ [x]) h.length = x := by
  simp [cellAt, List.getD, List.getElem?_append_right (le_refl _)]

theorem cellAt_of_length_le (h : Heap) (i : ℕ) (hi : h.length ≤ i) :
    cellAt h i = [] := by
  simp [cellAt, List.getD, List.getElem?_eq_none hi]

/-! ### Frame lemmas for one module application -/

theorem applyModule_fields (m : Module) (r : Record) (h : Heap) :
    (applyModule m r h).1.fields = r.fields := by
  cases he : r.eref <;> simp [applyModule, he]

theorem applyModule_length (m : Module) (r : Record) (h : Heap) :
    h.length ≤ (applyModule m r h).2.length := by
  cases he : r.eref with
  | none => simp [applyModule, he]
  | some j => simp [applyModule, he]

theorem applyModule_cell_isSome (m : Module) (r : Record) (h : Heap)
    (i : ℕ) (k : String) (hs : ((cellAt h i).lookup k).isSome) :
    ((cellAt (applyModule m r h).2 i).lookup k).isSome := by
  cases he : r.eref with
  | none =>
    by_cases hi : i < h.length
    · simpa [applyModule, he, cellAt_append_lt h _ i hi] using hs
    · rw [cellAt_of_length_le h i (le_of_not_lt hi)] at hs
      simp [List.lookup] at hs
  | some j =>
    by_cases hij : i = j
    · subst hij
      by_cases hi : i < h.length
      · have hcell : cellAt (applyModule m r h).2 i =
            dictInsert m.1 (m.2 r.fields) (cellAt h i) := by
          simp only [applyModule, he]
          exact cellAt_set_self h i _ hi
        rw [hcell]
        exact lookup_dictInsert_isSome m.1 (m.2 r.fields) k (cellAt h i) hs
      · simpa [applyModule, he,
          List.set_eq_of_length_le (le_of_not_lt hi)] using hs
    · simpa [applyModule, he, cellAt_set_ne h j _ i hij] using hs

theorem applyModule_cell_preserve (m : Module) (r : Record) (h : Heap) (n : ℕ)
    (hn : n ≤ h.length) (hr : ∀ j, r.eref = some j → n ≤ j) :
    (∀ i, i < n → cellAt (applyModule m r h).2 i = cellAt h i) ∧
    n ≤ (applyModule m r h).2.length ∧
    (∀ j, (applyModule m r h).1.eref = some j → n ≤ j) := by
  cases he : r.eref with
  | none =>
    refine ⟨?_, ?_, ?_⟩
    · intro i hi
      simpa [applyModule, he] using
        cellAt_append_lt h _ i (lt_of_lt_of_le hi hn)
    · simp only [applyModule, he]
      simp
      omega
    · intro j hj
      simp only [applyModule, he] at hj
      simp at hj
      omega
  | some j0 =>
    have hj0 := hr j0 he
    refine ⟨?_, ?_, ?_⟩
    · intro i hi
      simpa [applyModule, he] using cellAt_set_ne h j0 _ i (by omega)
    · simp only [applyModule, he]
      simpa using hn
    · intro j hj
      simp only [applyModule, he] at hj
      cases hj
      exact hj0

/-! ### Frame lemmas for the per-record and per-batch loops -/

theorem enrichOne_fields (reg : List (String × Module)) :
    ∀ (names : List String) (r : Record) (h : Heap) (w : List String),
      (enrichOne reg names r h w).1.fields = r.fields := by
  intro names
  induction names with
  | nil => intro r h w; rfl
  | cons nm rest ih =>
    intro r h w
    cases hl : reg.lookup nm with
    | some m =>
      simp only [enrichOne, hl]
      rw [ih]
      exact applyModule_fields m r h
    | none =>
      simp only [enrichOne, hl]
      exact ih r h (w ++ [nm])

theorem enrichOne_w_irrel (reg : List (String × Module)) :
    ∀ (names : List String) (r : Record) (h : Heap) (w w' : List String),
      (enrichOne reg names r h w).1 = (enrichOne reg names r h w').1 ∧
      (enrichOne reg names r h w).2.1 = (enrichOne reg names r h w').2.1 := by
  intro names
  induction names with
  | nil => intro r h w w'; exact ⟨rfl, rfl⟩
  | cons nm rest ih =>
    intro r h w w'
    cases hl : reg.lookup nm with
    | some m =>
      simp only [enrichOne, hl]
      exact ih _ _ w w'
    | none =>
      simp only [enrichOne, hl]
      exact ih r h (w ++ [nm]) (w' ++ [nm])

theorem enrichOne_warnings (reg : List (String × Module)) :
    ∀ (names : List String) (r : Record) (h : Heap) (w : List String),
      (enrichOne reg names r h w).2.2 =
        w ++ names.filter (fun nm => (reg.lookup nm).isNone) := by
  intro names
  induction names with
  | nil => intro r h w; simp [enrichOne]
  | cons nm rest ih =>
    intro r h w
    cases hl : reg.lookup nm with
    | some m =>
      simp only [enrichOne, hl]
      rw [ih, List.filter_cons]
      simp [hl]
    | none =>
      simp only [enrichOne, hl]
      rw [ih, List.filter_cons]
      simp [hl]

theorem enrichOne_filter (reg : List (String × Module)) :
    ∀ (names : List String) (r : Record) (h : Heap) (w : List String),
      (enrichOne reg (names.filter (fun nm => (reg.lookup nm).isSome)) r h w).1 =
        (enrichOne reg names r h w).1 ∧
      (enrichOne reg (names.filter (fun nm => (reg.lookup nm).isSome)) r h w).2.1 =
        (enrichOne reg names r h w).2.1 := by
  intro names
  induction names with
  | nil => intro r h w; exact ⟨rfl, rfl⟩
  | cons nm rest ih =>
    intro r h w
    cases hl : reg.lookup nm with
    | some m =>
      rw [List.filter_cons]
      simp only [hl, Option.isSome_some, if_pos]
      simp only [enrichOne, hl]
      exact ih _ _ w
    | none =>
      rw [List.filter_cons]
      simp only [hl, Option.isSome_none, Bool.false_eq_true, if_neg,
        not_false_iff, ite_false]
      simp only [enrichOne, hl]
      exact ⟨(ih r h w).1.trans (enrichOne_w_irrel reg rest r h w (w ++ [nm])).1,
        (ih r h w).2.trans (enrichOne_w_irrel reg rest r h w (w ++ [nm])).2⟩

theorem enrichOne_cell_preserve (reg : List (String × Module)) :
    ∀ (names : List String) (r : Record) (h : Heap) (w : List String) (n : ℕ),
      n ≤ h.length → (∀ j, r.eref = some j → n ≤ j) →
      (∀ i, i < n → cellAt (enrichOne reg names r h w).2.1 i = cellAt h i) ∧
      n ≤ (enrichOne reg names r h w).2.1.length ∧
      (∀ j, (enrichOne reg names r h w).1.eref = some j → n ≤ j) := by
  intro names
  induction names with
  | nil => intro r h w n hn hr; exact ⟨fun i _ => rfl, hn, hr⟩
  | cons nm rest ih =>
    intro r h w n hn hr
    cases hl : reg.lookup nm with
    | some m =>
      obtain ⟨hc, hlen, herf⟩ := applyModule_cell_preserve m r h n hn hr
      obtain ⟨hc', hlen', herf'⟩ :=
        ih (applyModule m r h).1 (applyModule m r h).2 w n hlen herf
      simp only [enrichOne, hl]
      exact ⟨fun i hi => (hc' i hi).trans (hc i hi), hlen', herf'⟩
    | none =>
      simp only [enrichOne, hl]
      exact ih r h (w ++ [nm]) n hn hr

theorem enrichOne_cell_isSome (reg : List (String × Module)) :
    ∀ (names : List String) (r : Record) (h : Heap) (w : List String)
      (i : ℕ) (k : String),
      ((cellAt h i).lookup k).isSome →
      ((cellAt (enrichOne reg names r h w).2.1 i).lookup k).isSome := by
  intro names
  induction names with
  | nil => intro r h w i k hs; exact hs
  | cons nm rest ih =>
    intro r h w i k hs
    cases hl : reg.lookup nm with
    | some m =>
      simp only [enrichOne, hl]
      exact ih _ _ w i k (applyModule_cell_isSome m r h i k hs)
    | none =>
      simp only [enrichOne, hl]
      exact ih r h (w ++ [nm]) i k hs

theorem enrichJokesAux_length (reg : List (String × Module)) :
    ∀ (jokes : List Record) (names : List String) (h : Heap) (w : List String),
      (enrichJokesAux reg jokes names h w).1.length = jokes.length := by
  intro jokes
  induction jokes with
  | nil => intro names h w; rfl
  | cons j js ih =>
    intro names h w
    simp only [enrichJokesAux, List.length_cons]
    rw [ih]

theorem enrichJokesAux_w_irrel (reg : List (String × Module)) :
    ∀ (jokes : List Record) (names : List String) (h : Heap) (w w' : List String),
      (enrichJokesAux reg jokes names h w).1 =
        (enrichJokesAux reg jokes names h w').1 ∧
      (enrichJokesAux reg jokes names h w).2.1 =
        (enrichJokesAux reg jokes names h w').2.1 := by
  intro jokes
  induction jokes with
  | nil => intro names h w w'; exact ⟨rfl, rfl⟩
  | cons j js ih =>
    intro names h w w'
    obtain ⟨hr, hh⟩ := enrichOne_w_irrel reg names j h w w'
    simp only [enrichJokesAux]
    rw [hr, hh]
    obtain ⟨hr', hh'⟩ := ih names (enrichOne reg names j h w').2.1
      (enrichOne reg names j h w).2.2 (enrichOne reg names j h w').2.2
    rw [hr', hh']
    exact ⟨rfl, rfl⟩

theorem enrichJokesAux_filter (reg : List (String × Module)) :
    ∀ (jokes : List Record) (names : List String) (h : Heap) (w : List String),
      (enrichJokesAux reg jokes (names.filter (fun nm => (reg.lookup nm).isSome)) h w).1 =
        (enrichJokesAux reg jokes names h w).1 ∧
      (enrichJokesAux reg jokes (names.filter (fun nm => (reg.lookup nm).isSome)) h w).2.1 =
        (enrichJokesAux reg jokes names h w).2.1 := by
  intro jokes
  induction jokes with
  | nil => intro names h w; exact ⟨rfl, rfl⟩
  | cons j js ih =>
    intro names h w
    obtain ⟨hr, hh⟩ := enrichOne_filter reg names j h w
    simp only [enrichJokesAux]
    rw [hr, hh]
    obtain ⟨hr', hh'⟩ := ih names (enrichOne reg names j h w).2.1
      (enrichOne reg (names.filter (fun nm => (reg.lookup nm).isSome)) j h w).2.2
    obtain ⟨hr'', hh''⟩ := enrichJokesAux_w_irrel reg js names
      (enrichOne reg names j h w).2.1
      (enrichOne reg (names.filter (fun nm => (reg.lookup nm).isSome)) j h w).2.2
      (enrichOne reg names j h w).2.2
    rw [hr', hh', hr'', hh'']
    exact ⟨rfl, rfl⟩

theorem enrichJokesAux_fields (reg : List (String × Module)) :
    ∀ (jokes : List Record) (names : List String) (h : Heap) (w : List String),
      List.Forall₂ (fun o i => o.fields = i.fields)
        (enrichJokesAux reg jokes names h w).1 jokes := by
  intro jokes
  induction jokes with
  | nil => intro names h w; exact List.Forall₂.nil
  | cons j js ih =>
    intro names h w
    exact List.Forall₂.cons (enrichOne_fields reg names j h w) (ih names _ _)

theorem enrichJokesAux_cell_preserve (reg : List (String × Module)) :
    ∀ (jokes : List Record) (names : List String) (h : Heap) (w : List String)
      (n : ℕ), n ≤ h.length → (∀ j ∈ jokes, j.eref = none) →
      (∀ i, i < n →
        cellAt (enrichJokesAux reg jokes names h w).2.1 i = cellAt h i) ∧
      n ≤ (enrichJokesAux reg jokes names h w).2.1.length := by
  intro jokes
  induction jokes with
  | nil => intro names h w n hn _; exact ⟨fun i _ => rfl, hn⟩
  | cons j js ih =>
    intro names h w n hn hnone
    have hj : j.eref = none := hnone j (List.mem_cons_self j js)
    obtain ⟨hc, hlen, _⟩ := enrichOne_cell_preserve reg names j h w n hn
      (fun j' hj' => by rw [hj] at hj'; cases hj')
    obtain ⟨hc', hlen'⟩ := ih names (enrichOne reg names j h w).2.1
      (enrichOne reg names j h w).2.2 n hlen
      (fun j' hj' => hnone j' (List.mem_cons_of_mem j hj'))
    simp only [enrichJokesAux]
    exact ⟨fun i hi => (hc' i hi).trans (hc i hi), hlen'⟩

theorem enrichJokesAux_cell_isSome (reg : List (String × Module)) :
    ∀ (jokes : List Record) (names : List String) (h : Heap) (w : List String)
      (i : ℕ) (k : String),
      ((cellAt h i).lookup k).isSome →
      ((cellAt (enrichJokesAux reg jokes names h w).2.1 i).lookup k).isSome := by
  intro jokes
  induction jokes with
  | nil => intro names h w i k hs; exact hs
  | cons j js ih =>
    intro names h w i k hs
    simp only [enrichJokesAux]
    exact ih names _ _ i k (enrichOne_cell_isSome reg names j h w i k hs)

/-! ### Claim theorems: pipeline frame properties -/

/-- C9: one module application turns the record's observable `enrichment`
dict into the old dict with exactly the module's own key overwritten (or
appended); the module's key maps to its block, every other key is
unchanged, and no pipeline run ever removes a key from any heap dict. -/
theorem module_enrich_frame (m : Module) (r : Record) (h : Heap)
    (hwf : ∀ j, r.eref = some j → j < h.length) :
    readEnrich (applyModule m r h).2 (applyModule m r h).1 =
      some (dictInsert m.1 (m.2 r.fields) ((readEnrich h r).getD [])) ∧
    (dictInsert m.1 (m.2 r.fields) ((readEnrich h r).getD [])).lookup m.1 =
      some (m.2 r.fields) ∧
    (∀ k, k ≠ m.1 →
      (dictInsert m.1 (m.2 r.fields) ((readEnrich h r).getD [])).lookup k =
        ((readEnrich h r).getD []).lookup k) ∧
    (∀ (reg : List (String × Module)) (jokes : List Record)
      (names : List String) (h0 : Heap) (w : List String) (i : ℕ) (k : String),
      ((cellAt h0 i).lookup k).isSome →
      ((cellAt (enrichJokesAux reg jokes names h0 w).2.1 i).lookup k).isSome) := by
  refine ⟨?_, lookup_dictInsert_self m.1 (m.2 r.fields) _,
    fun k hk => lookup_dictInsert_ne m.1 (m.2 r.fields) k hk _,
    fun reg jokes names h0 w i k hs =>
      enrichJokesAux_cell_isSome reg jokes names h0 w i k hs⟩
  cases he : r.eref with
  | none =>
    have h1 : readEnrich (applyModule m r h).2 (applyModule m r h).1 =
        some (cellAt (h ++ [dictInsert m.1 (m.2 r.fields) []]) h.length) := by
      simp [applyModule, he, readEnrich, cellAt]
    have h2 : readEnrich h r = none := by simp [readEnrich, he]
    rw [h1, cellAt_append_self, h2]
    rfl
  | some j =>
    have hj := hwf j he
    have h1 : readEnrich (applyModule m r h).2 (applyModule m r h).1 =
        some (cellAt
          (h.set j (dictInsert m.1 (m.2 r.fields) (cellAt h j))) j) := by
      simp [applyModule, he, readEnrich, cellAt]
    have h2 : readEnrich h r = some (cellAt h j) := by
      simp [readEnrich, he, cellAt]
    rw [h1, cellAt_set_self _ _ _ hj, h2]
    rfl

/-- Witness for C9: applying the length module to a record with no
`enrichment` key allocates a fresh dict holding exactly its key. -/
theorem module_enrich_frame_witness :
    readEnrich (applyModule ("length_classification", lengthBlock) ⟨[], none⟩ []).2
        (applyModule ("length_classification", lengthBlock) ⟨[], none⟩ []).1 =
      some (dictInsert "length_classification" (lengthBlock [])
        ((readEnrich [] ⟨[], none⟩).getD [])) :=
  (module_enrich_frame ("length_classification", lengthBlock) ⟨[], none⟩ []
    (fun _ hj => Option.noConfusion hj)).1

theorem registry_lookup_isSome (pol sub : Str → ℚ) (nm : String) :
    ((registry pol sub).lookup nm).isSome = knownName nm := by
  by_cases h1 : nm = "sentiment"
  · subst h1; rfl
  · have e1 : (nm == "sentiment") = false := beq_eq_false_iff_ne.mpr h1
    by_cases h2 : nm = "keywords"
    · subst h2; rfl
    · have e2 : (nm == "keywords") = false := beq_eq_false_iff_ne.mpr h2
      by_cases h3 : nm = "readability"
      · subst h3; rfl
      · have e3 : (nm == "readability") = false := beq_eq_false_iff_ne.mpr h3
        by_cases h4 : nm = "length"
        · subst h4; rfl
        · have e4 : (nm == "length") = false := beq_eq_false_iff_ne.mpr h4
          simp [registry, List.lookup, knownName, e1, e2, e3, e4, h1, h2, h3, h4]

/-- A minimal record for the unknown-selector scenario. -/
def fooFields : Fields := [("setup", "hi")]

/-- C6: `enrich_jokes` (a total function) returns one output record per
input record, behaves on records and heap exactly as if the unknown names
had been filtered out (so the valid modules apply in caller order), warns
once per unknown name per record, and on `["foo", "length"]` still
produces the `length_classification` block while warning about `"foo"`. -/
theorem enrich_jokes_robust (pol sub : Str → ℚ) (jokes : List Record)
    (names : List String) (h : Heap) :
    (enrich_jokes pol sub jokes names h).1.length = jokes.length ∧
    (enrich_jokes pol sub jokes names h).1 =
      (enrich_jokes pol sub jokes (names.filter knownName) h).1 ∧
    (enrich_jokes pol sub jokes names h).2.1 =
      (enrich_jokes pol sub jokes (names.filter knownName) h).2.1 ∧
    (∀ (r : Record) (h0 : Heap) (w0 : List String),
      (enrichOne (registry pol sub) names r h0 w0).2.2 =
        w0 ++ names.filter (fun nm => !knownName nm)) ∧
    ((readEnrich
        (enrich_jokes pol sub [⟨fooFields, none⟩] ["foo", "length"] []).2.1
        ((enrich_jokes pol sub [⟨fooFields, none⟩] ["foo", "length"] []).1.getD 0
          ⟨[], none⟩)).getD []).lookup "length_classification" =
      some (lengthBlock fooFields) ∧
    (enrich_jokes pol sub [⟨fooFields, none⟩] ["foo", "length"] []).2.2 =
      ["foo"] := by
  have hfilter : names.filter knownName =
      names.filter (fun nm => ((registry pol sub).lookup nm).isSome) := by
    apply List.filter_congr
    intro nm _
    rw [registry_lookup_isSome]
  refine ⟨enrichJokesAux_length _ jokes names h [], ?_, ?_, ?_, rfl, rfl⟩
  · rw [hfilter]
    exact (enrichJokesAux_filter (registry pol sub) jokes names h []).1.symm
  · rw [hfilter]
    exact (enrichJokesAux_filter (registry pol sub) jokes names h []).2.symm
  · intro r h0 w0
    rw [enrichOne_warnings]
    congr 1
    apply List.filter_congr
    intro nm _
    rw [← registry_lookup_isSome pol sub nm]
    cases (registry pol sub).lookup nm <;> rfl

/-- A record that already carries an (empty) `enrichment` dict, stored at
heap index 0. -/
def c1Fields : Fields :=
  [("joke_id", "x"), ("setup", "a"), ("punchline", "b"), ("source_url", "u")]

/-- The aliased record of the C1 counterexample. -/
def c1Rec : Record := ⟨c1Fields, some 0⟩

/-- Counterexample to C1: on an input record that already has an
`enrichment` dict, `enrich_jokes` returns the record unchanged as a value
(shallow copy shares the dict), and the original record's observable
`enrichment` content is mutated by the run. -/
theorem enrich_jokes_mutates_shared_enrichment :
    (enrich_jokes (fun _ => 0) (fun _ => 0) [c1Rec] ["length"] [[]]).1 = [c1Rec] ∧
    readEnrich (enrich_jokes (fun _ => 0) (fun _ => 0) [c1Rec] ["length"] [[]]).2.1
        c1Rec ≠
      readEnrich [[]] c1Rec := by
  exact ⟨rfl, by decide⟩

/-- C1 (amended): every output record's non-`enrichment` fields equal its
input record's fields, and when no input record carries an `enrichment`
key, every pre-existing heap dict — hence every input record's observable
`enrichment` — is left unmutated. -/
theorem enrich_jokes_copy_preserve (pol sub : Str → ℚ) (jokes : List Record)
    (names : List String) (h : Heap) (hnone : ∀ j ∈ jokes, j.eref = none) :
    List.Forall₂ (fun o i => o.fields = i.fields)
      (enrich_jokes pol sub jokes names h).1 jokes ∧
    (∀ i, i < h.length →
      cellAt (enrich_jokes pol sub jokes names h).2.1 i = cellAt h i) ∧
    (∀ j ∈ jokes,
      readEnrich (enrich_jokes pol sub jokes names h).2.1 j = readEnrich h j) := by
  refine ⟨enrichJokesAux_fields _ jokes names h [], ?_, ?_⟩
  · exact (enrichJokesAux_cell_preserve _ jokes names h [] h.length
      (le_refl _) hnone).1
  · intro j hj
    simp [readEnrich, hnone j hj]

/-- Witness for C1's amended statement: a fresh record leaves the
pre-existing heap dict at index 0 untouched. -/
theorem enrich_jokes_copy_preserve_witness :
    cellAt (enrich_jokes (fun _ => 0) (fun _ => 0) [⟨fooFields, none⟩]
      ["length"] [[]]).2.1 0 = cellAt [[]] 0 :=
  (enrich_jokes_copy_preserve (fun _ => 0) (fun _ => 0) [⟨fooFields, none⟩]
    ["length"] [[]] (by decide)).2.1 0 (by decide)

end JokeEnrich
